import Mathlib

/-!
Verification of the bookbot text-statistics program.

The program (src/main.py, src/stats.py) is embedded shallowly: Python strings
become `List Char`, the pure statistics functions become Lean functions of the
same name, and the fallible file loader becomes a function over an explicit
`Except` result of the underlying read.  Python's `str.lower`, `str.strip`,
`str.split` and the regular-expression operations used by the source are
modelled character by character (the ASCII fragment of the relevant Unicode
classes, which is the fragment the source exercises).
-/

/-- The whitespace characters recognised by Python's `str.split()` and
`str.strip()` in their ASCII fragment: space, tab, newline, carriage return,
vertical tab, form feed. -/
def pyIsSpace (c : Char) : Bool :=
  c = ' ' || c = '\t' || c = '\n' || c = '\r' || c = '\x0b' || c = '\x0c'

/-- Python `str.lower`, modelled per character (ASCII case mapping). -/
def pyLower (l : List Char) : List Char :=
  l.map Char.toLower

/-- Python `str.strip()`: drop leading and trailing whitespace. -/
def pyStrip (l : List Char) : List Char :=
  ((l.dropWhile pyIsSpace).reverse.dropWhile pyIsSpace).reverse

/-- The character class `\w` of Python's `re` module (ASCII fragment):
letters, digits and the underscore.  `re.sub(r'[^\w]', '', word)` keeps
exactly these characters. -/
def isWordChar (c : Char) : Bool :=
  c.isAlphanum || c = '_'

/-- Convenience: the character list of a string literal. -/
def pyStr (s : String) : List Char :=
  s.toList

/-- Prepend a character to the first fragment of a fragment list. -/
def consHead (c : Char) : List (List Char) → List (List Char)
  | [] => [[c]]
  | f :: r => (c :: f) :: r

/-- Split a character list at every character satisfying `p`, keeping empty
fragments (the semantics of `re.split` with a single-character pattern).
The result always has one more fragment than there are separator characters. -/
def splitOnPred (p : Char → Bool) : List Char → List (List Char)
  | [] => [[]]
  | c :: cs => if p c then [] :: splitOnPred p cs else consHead c (splitOnPred p cs)

/-- Python `str.split()` with no separator: the maximal nonempty runs of
non-whitespace characters, i.e. the nonempty fragments of the single-character
split (runs of whitespace act as one separator and no empty fragments appear
at either end). -/
def pySplit (l : List Char) : List (List Char) :=
  (splitOnPred pyIsSpace l).filter (fun w => !w.isEmpty)

/-- Worker for `re.split` with a pattern `[...]+`: maximal RUNS of separator
characters act as single separators.  The flag records whether the previous
character belonged to the current separator run (so further separator
characters extend the run instead of opening new empty fragments). -/
def splitRunsAux (p : Char → Bool) : Bool → List Char → List (List Char)
  | _, [] => [[]]
  | inRun, c :: cs =>
    if p c then
      if inRun then splitRunsAux p true cs
      else [] :: splitRunsAux p true cs
    else consHead c (splitRunsAux p false cs)

/-- Model of `re.split` with pattern `[.!?]+`: split on maximal runs of sentence-ending
punctuation. -/
def isSentenceEnd (c : Char) : Bool :=
  c = '.' || c = '!' || c = '?'

/-- Python `text.split('\n\n')`: split at non-overlapping, leftmost
occurrences of two consecutive newline characters. -/
def splitOnNN : List Char → List (List Char)
  | '\n' :: '\n' :: cs => [] :: splitOnNN cs
  | c :: cs => consHead c (splitOnNN cs)
  | [] => [[]]

/-- Embedding of `stats.get_num_words`: `0` for empty text, else the number of
whitespace-separated words. -/
def get_num_words (text : List Char) : Nat :=
  if text.isEmpty then 0 else (pySplit text).length

/-- Embedding of `stats.get_num_characters`: the length of the raw string. -/
def get_num_characters (text : List Char) : Nat :=
  text.length

/-- Embedding of `stats.get_num_sentences`: split on runs of `.`, `!`, `?` and count the
fragments that are nonempty after stripping whitespace. -/
def get_num_sentences (text : List Char) : Nat :=
  if text.isEmpty then 0
  else ((splitRunsAux isSentenceEnd false text).filter (fun s => !(pyStrip s).isEmpty)).length

/-- Embedding of `stats.get_num_paragraphs`: split on `"\n\n"` and count the fragments
that are nonempty after stripping whitespace. -/
def get_num_paragraphs (text : List Char) : Nat :=
  if text.isEmpty then 0
  else ((splitOnNN text).filter (fun s => !(pyStrip s).isEmpty)).length

/-- One counting step of a Python `dict`/`Counter` kept as an insertion-ordered
association list: increment the entry of `x` if present, else append `(x, 1)`
at the end (Python dicts preserve insertion order). -/
def bump {α : Type} [DecidableEq α] (x : α) : List (α × Nat) → List (α × Nat)
  | [] => [(x, 1)]
  | (y, n) :: r => if y = x then (y, n + 1) :: r else (y, n) :: bump x r

/-- Count the occurrences of every element of `l`, keys in first-occurrence
order: the insertion-ordered dict built by the counting loop of
`get_character_frequency`, and `collections.Counter` of a list. -/
def tally {α : Type} [DecidableEq α] (l : List α) : List (α × Nat) :=
  l.foldl (fun m x => bump x m) []

/-- Embedding of `stats.get_character_frequency`: count every character of the lowercased
text (empty dict for empty text). -/
def get_character_frequency (text : List Char) : List (Char × Nat) :=
  if text.isEmpty then [] else tally (pyLower text)

/-- The cleaned word list of `get_word_frequency`: lowercase, split on
whitespace, strip each word of characters outside `\w`, drop words that
become empty. -/
def cleanedWords (text : List Char) : List (List Char) :=
  ((pySplit (pyLower text)).map (fun w => w.filter isWordChar)).filter
    (fun w => !w.isEmpty)

/-- Insert `x` into a list sorted by descending `key`, before the first
element whose key is `≤ key x` (so an element inserted earlier stays in front
of later elements with equal keys: a stable descending insertion). -/
def insertDescBy {α : Type} (key : α → Nat) (x : α) : List α → List α
  | [] => [x]
  | y :: ys => if key y ≤ key x then x :: y :: ys else y :: insertDescBy key x ys

/-- Stable sort by descending `key` (insertion sort from the head, so elements
with equal keys keep their original relative order). -/
def sortDescBy {α : Type} (key : α → Nat) : List α → List α
  | [] => []
  | x :: xs => insertDescBy key x (sortDescBy key xs)

/-- Model of `Counter.most_common(n)`: the entries sorted by descending
count — a stable sort, ties keeping dict insertion order (CPython's
`heapq.nlargest` is documented as equivalent to a reverse-sorted slice and
breaks ties by original position) — truncated to the first `n`. -/
def mostCommon {α : Type} (n : Nat) (m : List (α × Nat)) : List (α × Nat) :=
  (sortDescBy Prod.snd m).take n

/-- Embedding of `stats.get_word_frequency`: the `top_n` most common cleaned lowercase
words with their counts. -/
def get_word_frequency (text : List Char) (top_n : Nat) : List (List Char × Nat) :=
  if text.isEmpty then [] else mostCommon top_n (tally (cleanedWords text))

/-- The `word_lengths` list of `get_average_word_length`: the lengths of the
words that remain nonempty after the `[^\w]` strip. -/
def wordLengths (text : List Char) : List Nat :=
  (((pySplit text).map (fun w => w.filter isWordChar)).filter
    (fun w => !w.isEmpty)).map List.length

/-- Embedding of `stats.get_average_word_length`: the mean of `wordLengths`, with the
source's three early returns of `0.0`, as exact rational arithmetic (the
Python float is the binary rounding of this value; no decimal rounding
happens in the function itself). -/
def get_average_word_length (text : List Char) : ℚ :=
  if text.isEmpty then 0
  else if (pySplit text).isEmpty then 0
  else if (wordLengths text).isEmpty then 0
  else ((wordLengths text).sum : ℚ) / ((wordLengths text).length : ℚ)

/-- The record type of the rows consumed by `main.py`'s printing loop, which
reads the keys `"char"` and `"num"` of each row. -/
structure CharData where
  char : Char
  num : Nat
deriving DecidableEq

/-- Modelled from the spec: `sort_character_frequency` is imported by
`src/main.py` from `stats` but has no definition in `src/stats.py`.  The spec
describes it as turning the character-count mapping into records sorted by
descending count, stable for equal counts (insertion order preserved). -/
def sort_character_frequency (freq : List (Char × Nat)) : List CharData :=
  sortDescBy CharData.num (freq.map (fun p => CharData.mk p.1 p.2))

/-- The Python exceptions relevant to the loader.  The first three are
`OSError`s (`IOError` is an alias of `OSError`, and `FileNotFoundError` and
`PermissionError` are its subclasses); `UnicodeDecodeError` is a subclass of
`ValueError`, not of `OSError`. -/
inductive PyExc : Type where
  | fileNotFound (msg : List Char)
  | permission (msg : List Char)
  | otherOS (msg : List Char)
  | unicodeDecode (msg : List Char)
deriving DecidableEq

/-- Whether `except IOError` (equivalently `except OSError`) catches the
exception.  `UnicodeDecodeError` is a `ValueError` and is not caught. -/
def excIsIOError : PyExc → Bool
  | .fileNotFound _ => true
  | .permission _ => true
  | .otherOS _ => true
  | .unicodeDecode _ => false

/-- Model of `str(e)` for a single-argument exception: its message. -/
def excMsg : PyExc → List Char
  | .fileNotFound m => m
  | .permission m => m
  | .otherOS m => m
  | .unicodeDecode m => m

/-- Embedding of `main.get_book_text`, as a function of the outcome `io` of the underlying
`open`/`read`: success passes through; `except FileNotFoundError` re-raises a
`FileNotFoundError` naming the path; `except IOError as e` re-raises an
`IOError` wrapping `str(e)`; any other exception propagates untouched. -/
def get_book_text (file_path : List Char) (io : Except PyExc (List Char)) :
    Except PyExc (List Char) :=
  match io with
  | .ok s => .ok s
  | .error e =>
    match e with
    | .fileNotFound _ => .error (.fileNotFound (pyStr "Book file not found: " ++ file_path))
    | _ =>
      if excIsIOError e then .error (.otherOS (pyStr "Error reading book file: " ++ excMsg e))
      else .error e

/-- The observable outcome of `main.main` after argument validation, as a
function of the read outcome: the single error line printed to stdout (if
any) and the process exit status.  `except (FileNotFoundError, IOError)`
prints `Error: <message>` and falls through to a normal exit (status `0`);
an uncaught exception aborts the interpreter with status `1`. -/
def mainRun (book_path : List Char) (io : Except PyExc (List Char)) :
    Option (List Char) × Nat :=
  match get_book_text book_path io with
  | .ok _ => (none, 0)
  | .error e =>
    if excIsIOError e then (some (pyStr "Error: " ++ excMsg e), 0)
    else (none, 1)

/-- The word-frequency pipeline as the spec words it: tokens stripped of
non-ALPHANUMERIC characters (no underscore), used to compare the spec's
wording against the source's `[^\w]` stripping. -/
def word_frequency_alnum_spec (text : List Char) (top_n : Nat) :
    List (List Char × Nat) :=
  if text.isEmpty then []
  else
    mostCommon top_n (tally
      (((pySplit (pyLower text)).map (fun w => w.filter Char.isAlphanum)).filter
        (fun w => !w.isEmpty)))

/-- The list of first occurrences of the elements of `l`, in order: each
element keeps its first position and later duplicates are dropped. -/
def firstOcc {α : Type} [DecidableEq α] : List α → List α
  | [] => []
  | x :: xs => x :: (firstOcc xs).filter (fun y => decide (y ≠ x))

/-- Association-list lookup, the value stored for `x`. -/
def findVal {α : Type} [DecidableEq α] (x : α) : List (α × Nat) → Option Nat
  | [] => none
  | (y, n) :: r => if y = x then some n else findVal x r

/-- The key list of an association list, in stored order. -/
def keysOf {α : Type} (m : List (α × Nat)) : List α :=
  m.map Prod.fst

/-- The total of the stored counts. -/
def sumVals {α : Type} (m : List (α × Nat)) : Nat :=
  (m.map Prod.snd).sum

/-- The number of occurrences of `x` in `l`. -/
def countOcc {α : Type} [DecidableEq α] (x : α) : List α → Nat
  | [] => 0
  | y :: r => (if y = x then 1 else 0) + countOcc x r

/-! ### Helper lemmas -/

theorem sumVals_bump {α : Type} [DecidableEq α] (x : α) :
    ∀ m : List (α × Nat), sumVals (bump x m) = sumVals m + 1 := by
  intro m
  induction m with
  | nil => simp [bump, sumVals]
  | cons p r ih =>
    obtain ⟨y, n⟩ := p
    by_cases h : y = x
    · simp [bump, h, sumVals]
      omega
    · simp only [bump, if_neg h, sumVals, List.map_cons, List.sum_cons] at ih ⊢
      omega

theorem sumVals_foldTally {α : Type} [DecidableEq α] :
    ∀ (l : List α) (m : List (α × Nat)),
      sumVals (l.foldl (fun a c => bump c a) m) = sumVals m + l.length := by
  intro l
  induction l with
  | nil => intro m; simp
  | cons c cs ih =>
    intro m
    simp only [List.foldl_cons, List.length_cons, ih (bump c m), sumVals_bump]
    omega

theorem get_num_sentences_eq (text : List Char) :
    get_num_sentences text
      = ((splitRunsAux isSentenceEnd false text).filter
          (fun s => !(pyStrip s).isEmpty)).length := by
  cases text with
  | nil => rfl
  | cons c cs => simp [get_num_sentences]

theorem get_num_paragraphs_eq (text : List Char) :
    get_num_paragraphs text
      = ((splitOnNN text).filter (fun s => !(pyStrip s).isEmpty)).length := by
  cases text with
  | nil => rfl
  | cons c cs => simp [get_num_paragraphs]

theorem wordLengths_example : wordLengths (pyStr "cat dog bird") = [3, 3, 4] := by
  decide

theorem average_example_val :
    get_average_word_length (pyStr "cat dog bird") = 10 / 3 := by
  have h0 : (pyStr "cat dog bird").isEmpty = false := rfl
  have h1 : (pySplit (pyStr "cat dog bird")).isEmpty = false := rfl
  have h2 : (wordLengths (pyStr "cat dog bird")).isEmpty = false := rfl
  rw [get_average_word_length, h0, h1, h2, wordLengths_example]
  norm_num

/-! ### Claims C2, C3, C4, C6, C7 -/

/-- C2, counterexample: an encoding failure (`UnicodeDecodeError`, a
`ValueError`) is not an `IOError`, so `get_book_text` does not wrap it in a
"read error" and `main` does not catch it: no `Error:` line is printed and
the interpreter aborts with exit status 1, contradicting the claim that every
non-not-found I/O failure (including encoding errors) is wrapped, reported
and followed by a normal exit. -/
theorem claim_C2_counterexample :
    get_book_text (pyStr "book.txt")
        (Except.error (PyExc.unicodeDecode (pyStr "invalid start byte")))
      = Except.error (PyExc.unicodeDecode (pyStr "invalid start byte"))
    ∧ mainRun (pyStr "book.txt")
        (Except.error (PyExc.unicodeDecode (pyStr "invalid start byte")))
      = (none, 1) :=
  ⟨rfl, rfl⟩

/-- C2, amended: the loader signals a distinct "file not found" condition
when the path does not exist and a "read error" condition for every other
OS-level I/O failure (permission errors, device errors), wrapping the cause;
those two conditions are caught at the entry point, reported as one line
`Error: <message>` on stdout and followed by a normal (zero) exit — but an
encoding failure (`UnicodeDecodeError`) is not an `IOError`, propagates
unwrapped and uncaught, and aborts the program with a nonzero status. -/
theorem claim_C2 :
    ∀ path m s : List Char,
      get_book_text path (Except.ok s) = Except.ok s
      ∧ (get_book_text path (Except.error (PyExc.fileNotFound m))
            = Except.error (PyExc.fileNotFound (pyStr "Book file not found: " ++ path))
         ∧ mainRun path (Except.error (PyExc.fileNotFound m))
            = (some (pyStr "Error: " ++ (pyStr "Book file not found: " ++ path)), 0))
      ∧ (get_book_text path (Except.error (PyExc.permission m))
            = Except.error (PyExc.otherOS (pyStr "Error reading book file: " ++ m))
         ∧ mainRun path (Except.error (PyExc.permission m))
            = (some (pyStr "Error: " ++ (pyStr "Error reading book file: " ++ m)), 0))
      ∧ (get_book_text path (Except.error (PyExc.otherOS m))
            = Except.error (PyExc.otherOS (pyStr "Error reading book file: " ++ m))
         ∧ mainRun path (Except.error (PyExc.otherOS m))
            = (some (pyStr "Error: " ++ (pyStr "Error reading book file: " ++ m)), 0))
      ∧ (get_book_text path (Except.error (PyExc.unicodeDecode m))
            = Except.error (PyExc.unicodeDecode m)
         ∧ (mainRun path (Except.error (PyExc.unicodeDecode m))).2 = 1) := by
  intro path m s
  exact ⟨rfl, ⟨rfl, rfl⟩, ⟨rfl, rfl⟩, ⟨rfl, rfl⟩, ⟨rfl, rfl⟩⟩

/-- C3, counterexample: the average word length of `"cat dog bird"` is
`10/3 = 3.333…`, not `3.67` (and the function performs no rounding at all,
so it cannot return the two-decimal value `3.67` either). -/
theorem claim_C3_counterexample :
    get_average_word_length (pyStr "cat dog bird") ≠ 367 / 100 := by
  rw [average_example_val]
  norm_num

/-- C3, amended: the average-word-length function whitespace-splits the text,
strips each word of the characters outside Python's `\w` class (alphanumerics
and the underscore survive), excludes words that become empty from both the
sum and the divisor, and returns 0 when no words remain;
`average_word_length("cat dog bird")` equals `10/3 ≈ 3.333`, which rounds to
`3.33` (not `3.67`) at two decimal places. -/
theorem claim_C3 :
    (∀ text : List Char, wordLengths text = [] → get_average_word_length text = 0)
    ∧ get_average_word_length (pyStr "cat dog bird") = 10 / 3
    ∧ round (get_average_word_length (pyStr "cat dog bird") * 100) = 333 := by
  refine ⟨?_, average_example_val, ?_⟩
  · intro text h
    rw [get_average_word_length, h]
    simp
  · rw [average_example_val, round_eq]
    rw [show (10 : ℚ) / 3 * 100 + 1 / 2 = 2003 / 6 by norm_num]
    rw [show (333 : ℤ) = ⌊(2003 : ℚ) / 6⌋ from ?_]
    symm
    rw [Int.floor_eq_iff]
    constructor <;> norm_num

/-- C3, witness for the hypothesis of the first conjunct: on `"! ?"` every
token is stripped to nothing, so no word lengths remain and the function
returns 0. -/
theorem claim_C3_witness :
    wordLengths (pyStr "! ?") = [] ∧ get_average_word_length (pyStr "! ?") = 0 :=
  ⟨by decide, claim_C3.1 (pyStr "! ?") (by decide)⟩

/-- C4: the values of the character-frequency table sum to the character
count of the lowercased text. -/
theorem claim_C4 :
    ∀ s : List Char,
      sumVals (get_character_frequency s) = get_num_characters (pyLower s) := by
  intro s
  cases s with
  | nil => rfl
  | cons c cs =>
    have h : get_character_frequency (c :: cs) = tally (pyLower (c :: cs)) := rfl
    rw [h, tally, sumVals_foldTally]
    simp [get_num_characters, pyLower, sumVals]

/-- C6: the sentence counter splits the text on runs of `.`, `!`, `?` and
counts the fragments that are nonempty after trimming whitespace; on
`"Hello. World! How are you?"` it returns 3. -/
theorem claim_C6 :
    (∀ text : List Char,
      get_num_sentences text
        = ((splitRunsAux isSentenceEnd false text).filter
            (fun s => !(pyStrip s).isEmpty)).length)
    ∧ get_num_sentences (pyStr "Hello. World! How are you?") = 3 :=
  ⟨get_num_sentences_eq, by decide⟩

/-- C7: the paragraph counter splits the text on two consecutive newlines and
counts the fragments that are nonempty after trimming whitespace; on
`"Para one.\n\nPara two.\n\nPara three."` it returns 3. -/
theorem claim_C7 :
    (∀ text : List Char,
      get_num_paragraphs text
        = ((splitOnNN text).filter (fun s => !(pyStrip s).isEmpty)).length)
    ∧ get_num_paragraphs (pyStr "Para one.\n\nPara two.\n\nPara three.") = 3 :=
  ⟨get_num_paragraphs_eq, by decide⟩

/-! ### Whitespace splitting and stripping (claim C8) -/

theorem consHead_ne_nil (c : Char) : ∀ m, consHead c m ≠ [] := by
  intro m
  cases m <;> simp [consHead]

theorem splitOnPred_ne_nil (p : Char → Bool) : ∀ l, splitOnPred p l ≠ [] := by
  intro l
  cases l with
  | nil => simp [splitOnPred]
  | cons c cs =>
    cases hp : p c with
    | true => simp [splitOnPred, hp]
    | false => simp [splitOnPred, hp, consHead_ne_nil]

theorem consHead_append (c : Char) (X Y : List (List Char)) (hX : X ≠ []) :
    consHead c (X ++ Y) = consHead c X ++ Y := by
  cases X with
  | nil => exact absurd rfl hX
  | cons f r => simp [consHead]

theorem splitOnPred_allP (p : Char → Bool) :
    ∀ t : List Char, (∀ c ∈ t, p c = true) →
      splitOnPred p t = List.replicate (t.length + 1) [] := by
  intro t
  induction t with
  | nil => intro _; rfl
  | cons c cs ih =>
    intro h
    have hc : p c = true := h c (List.mem_cons_self c cs)
    have hcs : ∀ d ∈ cs, p d = true := fun d hd => h d (List.mem_cons_of_mem c hd)
    simp [splitOnPred, hc, ih hcs, List.replicate_succ]

theorem splitOnPred_append_allP (p : Char → Bool) (t : List Char)
    (ht : ∀ c ∈ t, p c = true) :
    ∀ l, splitOnPred p (l ++ t) = splitOnPred p l ++ List.replicate t.length [] := by
  intro l
  induction l with
  | nil =>
    simp only [List.nil_append]
    rw [splitOnPred_allP p t ht, List.replicate_succ]
    rfl
  | cons c cs ih =>
    cases hp : p c with
    | true => simp [splitOnPred, hp, ih]
    | false =>
      simp only [List.cons_append, splitOnPred, hp, Bool.false_eq_true, if_false,
        List.append_eq, ih]
      exact consHead_append c _ _ (splitOnPred_ne_nil p cs)

theorem filter_nonempty_replicate_nil (n : Nat) :
    (List.replicate n ([] : List Char)).filter (fun w => !w.isEmpty) = [] := by
  induction n with
  | zero => rfl
  | succ k ih => simp [List.replicate_succ, ih]

theorem pySplit_append_spaces (t : List Char) (ht : ∀ c ∈ t, pyIsSpace c = true)
    (l : List Char) : pySplit (l ++ t) = pySplit l := by
  rw [pySplit, splitOnPred_append_allP pyIsSpace t ht l, List.filter_append,
    filter_nonempty_replicate_nil, List.append_nil]
  rfl

theorem pySplit_dropWhile_spaces : ∀ l : List Char,
    pySplit (l.dropWhile pyIsSpace) = pySplit l := by
  intro l
  induction l with
  | nil => rfl
  | cons c cs ih =>
    cases hp : pyIsSpace c with
    | true =>
      rw [List.dropWhile_cons_of_pos hp, ih]
      simp [pySplit, splitOnPred, hp]
    | false => rw [List.dropWhile_cons_of_neg (by simp [hp])]

theorem pySplit_pyStrip (s : List Char) : pySplit (pyStrip s) = pySplit s := by
  set a := s.dropWhile pyIsSpace with ha
  set r := a.reverse with hr
  have hsplit : a = (r.dropWhile pyIsSpace).reverse ++ (r.takeWhile pyIsSpace).reverse := by
    rw [← List.reverse_append, List.takeWhile_append_dropWhile, hr, List.reverse_reverse]
  have htail : ∀ c ∈ (r.takeWhile pyIsSpace).reverse, pyIsSpace c = true := by
    intro c hc
    exact List.mem_takeWhile_imp (List.mem_reverse.mp hc)
  have h1 : pySplit a = pySplit (pyStrip s) := by
    rw [pyStrip, ← ha, ← hr]
    calc pySplit a = pySplit ((r.dropWhile pyIsSpace).reverse ++ (r.takeWhile pyIsSpace).reverse) := by rw [← hsplit]
    _ = pySplit ((r.dropWhile pyIsSpace).reverse) := pySplit_append_spaces _ htail _
  rw [← h1, ha, pySplit_dropWhile_spaces]

theorem get_num_words_eq (l : List Char) : get_num_words l = (pySplit l).length := by
  cases l with
  | nil => rfl
  | cons c cs => simp [get_num_words]

/-- C8: stripping leading and trailing whitespace never changes the word
count. -/
theorem claim_C8 : ∀ s : List Char, get_num_words s = get_num_words (pyStrip s) := by
  intro s
  rw [get_num_words_eq, get_num_words_eq, pySplit_pyStrip]

/-! ### The counting dict: lookups, keys, first-occurrence order
(claims C10, C1, C9) -/

section Tally

variable {α : Type} [DecidableEq α]

theorem findVal_bump_same (x : α) :
    ∀ m, findVal x (bump x m) = some ((findVal x m).getD 0 + 1) := by
  intro m
  induction m with
  | nil => simp [bump, findVal]
  | cons p r ih =>
    obtain ⟨y, n⟩ := p
    by_cases h : y = x
    · simp [bump, findVal, h]
    · simp [bump, findVal, h, ih]

theorem findVal_bump_other {y x : α} (h : y ≠ x) :
    ∀ m, findVal y (bump x m) = findVal y m := by
  intro m
  induction m with
  | nil => simp [bump, findVal, Ne.symm h]
  | cons p r ih =>
    obtain ⟨z, n⟩ := p
    by_cases hz : z = x
    · subst hz
      simp [bump, findVal, Ne.symm h]
    · simp [bump, findVal, hz, ih]

theorem foldTally_findVal_some (x : α) :
    ∀ (l : List α) (m : List (α × Nat)) (n : Nat), findVal x m = some n →
      findVal x (l.foldl (fun a c => bump c a) m) = some (n + countOcc x l) := by
  intro l
  induction l with
  | nil => intro m n h; simpa [countOcc] using h
  | cons c cs ih =>
    intro m n h
    by_cases hc : c = x
    · subst hc
      have h1 : findVal c (bump c m) = some (n + 1) := by
        rw [findVal_bump_same, h]
        rfl
      have hcount : countOcc c (c :: cs) = 1 + countOcc c cs := by
        simp [countOcc]
      rw [List.foldl_cons, ih (bump c m) (n + 1) h1, hcount]
      congr 1
      omega
    · have h1 : findVal x (bump c m) = some n := by
        rw [findVal_bump_other (Ne.symm hc), h]
      rw [List.foldl_cons, ih (bump c m) n h1]
      simp [countOcc, hc]

theorem foldTally_findVal_none (x : α) :
    ∀ (l : List α) (m : List (α × Nat)), findVal x m = none →
      findVal x (l.foldl (fun a c => bump c a) m)
        = if countOcc x l = 0 then none else some (countOcc x l) := by
  intro l
  induction l with
  | nil => intro m h; simpa [countOcc] using h
  | cons c cs ih =>
    intro m h
    by_cases hc : c = x
    · subst hc
      have h1 : findVal c (bump c m) = some 1 := by
        rw [findVal_bump_same, h]
        rfl
      have hcount : countOcc c (c :: cs) = 1 + countOcc c cs := by
        simp [countOcc]
      rw [List.foldl_cons, foldTally_findVal_some c cs (bump c m) 1 h1, hcount,
        if_neg (by omega)]
    · have h1 : findVal x (bump c m) = none := by
        rw [findVal_bump_other (Ne.symm hc), h]
      rw [List.foldl_cons, ih (bump c m) h1]
      simp [countOcc, hc]

theorem tally_findVal (x : α) (l : List α) :
    findVal x (tally l)
      = if countOcc x l = 0 then none else some (countOcc x l) :=
  foldTally_findVal_none x l [] rfl

theorem keysOf_bump (x : α) :
    ∀ m, keysOf (bump x m)
      = if x ∈ keysOf m then keysOf m else keysOf m ++ [x] := by
  intro m
  induction m with
  | nil => simp [bump, keysOf]
  | cons p r ih =>
    obtain ⟨y, n⟩ := p
    by_cases h : y = x
    · subst h
      simp [bump, keysOf]
    · have hyx : x ≠ y := Ne.symm h
      have hb : bump x ((y, n) :: r) = (y, n) :: bump x r := by
        simp [bump, h]
      have hkeys : keysOf ((y, n) :: r) = y :: keysOf r := rfl
      have hk2 : keysOf ((y, n) :: bump x r) = y :: keysOf (bump x r) := rfl
      rw [hb, hk2, hkeys, ih]
      by_cases hx : x ∈ keysOf r
      · rw [if_pos hx, if_pos (List.mem_cons_of_mem y hx)]
      · have hnx : x ∉ y :: keysOf r := by
          intro hc
          rcases List.mem_cons.mp hc with h1 | h1
          · exact hyx h1
          · exact hx h1
        rw [if_neg hx, if_neg hnx]
        rfl

theorem keysOf_bump_nodup (x : α) (m : List (α × Nat))
    (h : (keysOf m).Nodup) : (keysOf (bump x m)).Nodup := by
  rw [keysOf_bump]
  by_cases hx : x ∈ keysOf m
  · rwa [if_pos hx]
  · rw [if_neg hx, List.nodup_append]
    refine ⟨h, List.nodup_singleton x, ?_⟩
    intro a ha hax
    rw [List.mem_singleton] at hax
    subst hax
    exact hx ha

theorem foldTally_keys_nodup :
    ∀ (l : List α) (m : List (α × Nat)), (keysOf m).Nodup →
      (keysOf (l.foldl (fun a c => bump c a) m)).Nodup := by
  intro l
  induction l with
  | nil => intro m h; exact h
  | cons c cs ih =>
    intro m h
    exact ih (bump c m) (keysOf_bump_nodup c m h)

theorem tally_keys_nodup (l : List α) : (keysOf (tally l)).Nodup :=
  foldTally_keys_nodup l [] List.nodup_nil

theorem mem_firstOcc {x : α} : ∀ l : List α, x ∈ firstOcc l ↔ x ∈ l := by
  intro l
  induction l with
  | nil => simp [firstOcc]
  | cons c cs ih =>
    by_cases hx : x = c
    · subst hx
      simp [firstOcc]
    · simp [firstOcc, List.mem_filter, hx, ih]

theorem foldTally_keys :
    ∀ (l : List α) (m : List (α × Nat)),
      keysOf (l.foldl (fun a c => bump c a) m)
        = keysOf m ++ (firstOcc l).filter (fun y => decide (y ∉ keysOf m)) := by
  intro l
  induction l with
  | nil => intro m; simp [firstOcc]
  | cons c cs ih =>
    intro m
    rw [List.foldl_cons, ih (bump c m), keysOf_bump]
    have hfo : firstOcc (c :: cs) = c :: (firstOcc cs).filter (fun y => decide (y ≠ c)) := rfl
    rw [hfo]
    by_cases hc : c ∈ keysOf m
    · rw [if_pos hc, List.filter_cons, if_neg (by simp [hc])]
      congr 1
      rw [List.filter_filter]
      refine List.filter_congr ?_
      intro y hy
      by_cases hyc : y = c
      · subst hyc
        simp [hc]
      · simp [hyc]
    · rw [if_neg hc, List.filter_cons, if_pos (by simp [hc])]
      have h1 : (firstOcc cs).filter (fun y => decide (y ∉ keysOf m ++ [c]))
          = ((firstOcc cs).filter (fun y => decide (y ≠ c))).filter
              (fun y => decide (y ∉ keysOf m)) := by
        rw [List.filter_filter]
        refine List.filter_congr ?_
        intro y hy
        by_cases hyc : y = c
        · subst hyc
          simp
        · simp [hyc, List.mem_append]
      rw [h1, List.append_assoc]
      rfl

theorem tally_keys (l : List α) : keysOf (tally l) = firstOcc l := by
  rw [tally, foldTally_keys]
  have h : (fun y : α => decide (y ∉ keysOf ([] : List (α × Nat)))) = fun _ => true := by
    funext y
    simp [keysOf]
  rw [h, List.filter_true]
  rfl

theorem findVal_of_mem_nodup :
    ∀ m : List (α × Nat), (keysOf m).Nodup →
      ∀ x n, (x, n) ∈ m → findVal x m = some n := by
  intro m
  induction m with
  | nil =>
    intro _ x n h
    simp at h
  | cons p r ih =>
    intro hnd x n hmem
    obtain ⟨y, k⟩ := p
    have hnd2 : (y :: keysOf r).Nodup := hnd
    rw [List.nodup_cons] at hnd2
    rcases List.mem_cons.mp hmem with h1 | h1
    · rw [Prod.mk.injEq] at h1
      obtain ⟨hx, hn⟩ := h1
      subst hx
      subst hn
      simp [findVal]
    · have hxr : x ∈ keysOf r := by
        have := List.mem_map_of_mem Prod.fst h1
        simpa [keysOf] using this
      have hyx : ¬y = x := by
        intro he
        subst he
        exact hnd2.1 hxr
      simp only [findVal, if_neg hyx]
      exact ih hnd2.2 x n h1

/-- C10: the character-frequency table has pairwise-distinct keys, exactly the
characters of the lowercased text, in first-occurrence order, and each key's
value is its number of occurrences in the lowercased text (hence at least 1). -/
theorem claim_C10 :
    ∀ s : List Char,
      (keysOf (get_character_frequency s)).Nodup
      ∧ (∀ c : Char, c ∈ keysOf (get_character_frequency s) ↔ c ∈ pyLower s)
      ∧ (∀ p ∈ get_character_frequency s, p.2 = countOcc p.1 (pyLower s) ∧ 1 ≤ p.2)
      ∧ keysOf (get_character_frequency s) = firstOcc (pyLower s) := by
  intro s
  cases s with
  | nil =>
    refine ⟨List.nodup_nil, ?_, ?_, rfl⟩
    · intro c
      simp [get_character_frequency, keysOf, pyLower]
    · intro p hp
      simp [get_character_frequency] at hp
  | cons c0 cs =>
    have hfreq : get_character_frequency (c0 :: cs) = tally (pyLower (c0 :: cs)) := rfl
    rw [hfreq]
    refine ⟨tally_keys_nodup _, ?_, ?_, tally_keys _⟩
    · intro c
      rw [tally_keys]
      exact mem_firstOcc _
    · intro p hp
      have hfind : findVal p.1 (tally (pyLower (c0 :: cs))) = some p.2 := by
        obtain ⟨x, n⟩ := p
        exact findVal_of_mem_nodup _ (tally_keys_nodup _) x n hp
      rw [tally_findVal] at hfind
      by_cases h0 : countOcc p.1 (pyLower (c0 :: cs)) = 0
      · rw [if_pos h0] at hfind
        exact absurd hfind (by simp)
      · rw [if_neg h0] at hfind
        have hv := Option.some.inj hfind
        constructor
        · omega
        · omega

/-- C10, witness: on `"aba"` the entry `('a', 2)` is in the table and its
count is the number of occurrences of `'a'`, and `'b'` is a key because it
occurs in the lowercased text. -/
theorem claim_C10_witness :
    (('a', 2).2 = countOcc ('a', 2).1 (pyLower (pyStr "aba")) ∧ 1 ≤ ('a', 2).2)
    ∧ ('b' ∈ keysOf (get_character_frequency (pyStr "aba"))
        ↔ 'b' ∈ pyLower (pyStr "aba")) :=
  ⟨(claim_C10 (pyStr "aba")).2.2.1 ('a', 2) (by decide),
    (claim_C10 (pyStr "aba")).2.1 'b'⟩

theorem tally_mem_count (l : List α) :
    ∀ p ∈ tally l, p.2 = countOcc p.1 l ∧ 1 ≤ p.2 := by
  intro p hp
  have hfind : findVal p.1 (tally l) = some p.2 := by
    obtain ⟨x, n⟩ := p
    exact findVal_of_mem_nodup _ (tally_keys_nodup _) x n hp
  rw [tally_findVal] at hfind
  by_cases h0 : countOcc p.1 l = 0
  · rw [if_pos h0] at hfind
    exact absurd hfind (by simp)
  · rw [if_neg h0] at hfind
    have hv := Option.some.inj hfind
    omega

end Tally

/-! ### Stable descending sorting (claims C5, C1, C9) -/

section Sorting

variable {α : Type} (key : α → Nat)

theorem insertDescBy_perm (x : α) :
    ∀ l, (insertDescBy key x l).Perm (x :: l) := by
  intro l
  induction l with
  | nil => exact List.Perm.refl _
  | cons y ys ih =>
    by_cases hle : key y ≤ key x
    · simp only [insertDescBy, if_pos hle]
      exact List.Perm.refl _
    · simp only [insertDescBy, if_neg hle]
      exact (List.Perm.cons y ih).trans (List.Perm.swap x y ys)

theorem sortDescBy_perm : ∀ l : List α, (sortDescBy key l).Perm l := by
  intro l
  induction l with
  | nil => exact List.Perm.refl _
  | cons x xs ih =>
    exact (insertDescBy_perm key x (sortDescBy key xs)).trans (List.Perm.cons x ih)

theorem insertDescBy_pairwise (x : α) :
    ∀ l, List.Pairwise (fun a b => key b ≤ key a) l →
      List.Pairwise (fun a b => key b ≤ key a) (insertDescBy key x l) := by
  intro l
  induction l with
  | nil =>
    intro _
    simp [insertDescBy]
  | cons y ys ih =>
    intro hp
    rw [List.pairwise_cons] at hp
    by_cases hle : key y ≤ key x
    · simp only [insertDescBy, if_pos hle]
      rw [List.pairwise_cons]
      refine ⟨?_, List.pairwise_cons.mpr hp⟩
      intro z hz
      rcases List.mem_cons.mp hz with h1 | h1
      · subst h1
        exact hle
      · exact Nat.le_trans (hp.1 z h1) hle
    · simp only [insertDescBy, if_neg hle]
      rw [List.pairwise_cons]
      refine ⟨?_, ih hp.2⟩
      intro z hz
      have hz2 : z ∈ x :: ys := (insertDescBy_perm key x ys).mem_iff.mp hz
      rcases List.mem_cons.mp hz2 with h1 | h1
      · subst h1
        exact Nat.le_of_lt (Nat.lt_of_not_le hle)
      · exact hp.1 z h1

theorem sortDescBy_pairwise :
    ∀ l : List α, List.Pairwise (fun a b => key b ≤ key a) (sortDescBy key l) := by
  intro l
  induction l with
  | nil => simp [sortDescBy]
  | cons x xs ih => exact insertDescBy_pairwise key x (sortDescBy key xs) ih

theorem insertDescBy_filter_key (x : α) (k : Nat) :
    ∀ l, (insertDescBy key x l).filter (fun a => decide (key a = k))
      = if key x = k then x :: l.filter (fun a => decide (key a = k))
        else l.filter (fun a => decide (key a = k)) := by
  intro l
  induction l with
  | nil => by_cases hk : key x = k <;> simp [insertDescBy, hk]
  | cons y ys ih =>
    by_cases hle : key y ≤ key x
    · simp only [insertDescBy, if_pos hle]
      by_cases hk : key x = k <;> simp [List.filter_cons, hk]
    · simp only [insertDescBy, if_neg hle]
      have hxy : key x < key y := Nat.lt_of_not_le hle
      by_cases hk : key x = k
      · have hyk : ¬key y = k := by omega
        simp [List.filter_cons, hyk, ih, hk]
      · by_cases hyk : key y = k <;> simp [List.filter_cons, hyk, ih, hk]

theorem sortDescBy_filter_key (k : Nat) :
    ∀ l : List α, (sortDescBy key l).filter (fun a => decide (key a = k))
      = l.filter (fun a => decide (key a = k)) := by
  intro l
  induction l with
  | nil => rfl
  | cons x xs ih =>
    rw [sortDescBy, insertDescBy_filter_key]
    by_cases hk : key x = k <;> simp [List.filter_cons, hk, ih]

end Sorting

/-! ### Claims C5, C1, C9 -/

/-- C5 (modelled from the spec, since `sort_character_frequency` has no
definition under src/): the display-sorting helper returns the frequency
entries as records sorted by descending count, is a permutation of the input
records, and is stable: for every count value the records carrying it keep
the input mapping's insertion order, which by C10 is the order of first
occurrence during the counting pass. -/
theorem claim_C5 :
    ∀ freq : List (Char × Nat),
      List.Pairwise (fun a b => b.num ≤ a.num) (sort_character_frequency freq)
      ∧ (sort_character_frequency freq).Perm
          (freq.map (fun p => CharData.mk p.1 p.2))
      ∧ ∀ k, (sort_character_frequency freq).filter (fun d => decide (d.num = k))
          = (freq.map (fun p => CharData.mk p.1 p.2)).filter
              (fun d => decide (d.num = k)) := by
  intro freq
  exact ⟨sortDescBy_pairwise CharData.num _, sortDescBy_perm CharData.num _,
    fun k => sortDescBy_filter_key CharData.num k _⟩

/-- C1, counterexample: the claim says tokens are stripped of
non-ALPHANUMERIC characters and discarded when empty, so on `"_"` it predicts
the empty table; the code strips with `[^\w]`, which keeps the underscore
(not an alphanumeric character), and returns `[("_", 1)]`. -/
theorem claim_C1_counterexample :
    get_word_frequency (pyStr "_") 2 = [(pyStr "_", 1)]
    ∧ word_frequency_alnum_spec (pyStr "_") 2 = []
    ∧ ('_').isAlphanum = false :=
  ⟨by decide, by decide, by decide⟩

/-- C1, amended: the word-frequency function lowercases, whitespace-splits,
strips each token of the characters outside Python's `\w` class (alphanumerics
AND the underscore survive), discards empty tokens, aggregates counts, and
returns at most `N` pairs ordered by descending count with ties kept in
first-occurrence order; `word_frequency("the cat the dog the", 2)` equals
`[("the", 3), ("cat", 1)]`. -/
theorem claim_C1 :
    (∀ (text : List Char) (n : Nat),
      (get_word_frequency text n).length ≤ n
      ∧ List.Pairwise (fun a b => b.2 ≤ a.2) (get_word_frequency text n)
      ∧ keysOf (tally (cleanedWords text)) = firstOcc (cleanedWords text)
      ∧ (∀ p ∈ tally (cleanedWords text),
          p.2 = countOcc p.1 (cleanedWords text) ∧ 1 ≤ p.2)
      ∧ (∀ k, ∃ rest,
          (get_word_frequency text n).filter (fun p => decide (p.2 = k)) ++ rest
            = (tally (cleanedWords text)).filter (fun p => decide (p.2 = k))))
    ∧ get_word_frequency (pyStr "the cat the dog the") 2
        = [(pyStr "the", 3), (pyStr "cat", 1)] := by
  constructor
  · intro text n
    refine ⟨?_, ?_, tally_keys _, tally_mem_count _, ?_⟩
    · cases text with
      | nil => simp [get_word_frequency]
      | cons c cs =>
        have h : get_word_frequency (c :: cs) n
            = (sortDescBy Prod.snd (tally (cleanedWords (c :: cs)))).take n := rfl
        rw [h, List.length_take]
        exact Nat.min_le_left _ _
    · cases text with
      | nil => simp [get_word_frequency]
      | cons c cs =>
        have h : get_word_frequency (c :: cs) n
            = (sortDescBy Prod.snd (tally (cleanedWords (c :: cs)))).take n := rfl
        rw [h]
        exact List.Pairwise.sublist (List.take_sublist n _)
          (sortDescBy_pairwise Prod.snd _)
    · intro k
      cases text with
      | nil => exact ⟨[], rfl⟩
      | cons c cs =>
        refine ⟨((sortDescBy Prod.snd (tally (cleanedWords (c :: cs)))).drop n).filter
          (fun p => decide (p.2 = k)), ?_⟩
        have h : get_word_frequency (c :: cs) n
            = (sortDescBy Prod.snd (tally (cleanedWords (c :: cs)))).take n := rfl
        rw [h, ← List.filter_append, List.take_append_drop]
        exact sortDescBy_filter_key Prod.snd k _
  · decide

/-- C1, witness for the membership hypothesis of the aggregation conjunct:
in `"the cat the dog the"` the entry `("the", 3)` is in the counting dict and
3 is the number of occurrences of the cleaned word `"the"`. -/
theorem claim_C1_witness :
    (pyStr "the", 3) ∈ tally (cleanedWords (pyStr "the cat the dog the"))
    ∧ (pyStr "the", 3).2
        = countOcc (pyStr "the", 3).1 (cleanedWords (pyStr "the cat the dog the")) :=
  ⟨by decide,
    ((claim_C1.1 (pyStr "the cat the dog the") 2).2.2.2.1 (pyStr "the", 3)
      (by decide)).1⟩

/-- C9: the word-frequency table never contains the empty string as a key. -/
theorem claim_C9 :
    ∀ (text : List Char) (n : Nat),
      ([] : List Char) ∉ (get_word_frequency text n).map Prod.fst := by
  intro text n hmem
  rcases List.mem_map.mp hmem with ⟨p, hp, hfst⟩
  cases text with
  | nil => simp [get_word_frequency] at hp
  | cons c cs =>
    have h : get_word_frequency (c :: cs) n
        = (sortDescBy Prod.snd (tally (cleanedWords (c :: cs)))).take n := rfl
    rw [h] at hp
    have hp2 : p ∈ sortDescBy Prod.snd (tally (cleanedWords (c :: cs))) :=
      List.take_subset n _ hp
    have hp3 : p ∈ tally (cleanedWords (c :: cs)) :=
      (sortDescBy_perm Prod.snd _).mem_iff.mp hp2
    have hkey : p.1 ∈ keysOf (tally (cleanedWords (c :: cs))) :=
      List.mem_map_of_mem Prod.fst hp3
    rw [tally_keys] at hkey
    have hcw : p.1 ∈ cleanedWords (c :: cs) := (mem_firstOcc _).mp hkey
    simp only [cleanedWords] at hcw
    rcases List.mem_filter.mp hcw with ⟨_, hne⟩
    rw [hfst] at hne
    simp at hne

/-- C9, witness: a concrete instance of the empty string never being a key. -/
theorem claim_C9_witness :
    ([] : List Char) ∉ (get_word_frequency (pyStr "a b!") 3).map Prod.fst :=
  claim_C9 (pyStr "a b!") 3
